import Mathlib

/-!
# Ash Album — verification of the media-indexing pipeline

Shallow embedding of the background media scanner (`src/scanner.py`) and the
disk-backed thumbnail cache worker (`src/thumb_loader.py`) of the Ash Album
repository, together with proofs about the behaviour that the specification
describes.

Modelling conventions:
* file paths are `String`s (the worker) or lists of path components (the
  scanner's tree walk);
* Python `set`s become `Finset String`; Python lists become `List`;
* the filesystem seen by the scanner is an explicit directory tree, symlink
  free, so `Path.resolve` is the identity on the absolute path;
* the environment of the thumbnail worker (the on-disk cache directory and
  success or failure of decoding a source file) is an explicit `Disk` record;
* real arithmetic in thumbnail-size computations is modelled exactly over `ℚ`.
-/

namespace AshAlbum

/-! ## Thumbnail worker state (`ThumbnailWorker` in `src/thumb_loader.py`)

`queue` models `self._queue : list[str]`, `processed` models
`self._processed : set[str]`.  The mutex and condition variable only
serialise access and wake the worker; they carry no state that the
claims mention, so the embedding is the sequential state machine. -/

structure WState where
  queue : List String
  processed : Finset String
deriving DecidableEq

/-- Initial worker state: empty queue, empty processed set
(`ThumbnailWorker.__init__`). -/
def initW : WState := ⟨[], ∅⟩

/-- `ThumbnailWorker.enqueue`: append `file_path` unless it is already
processed or already queued. -/
def enqueue (s : WState) (file_path : String) : WState :=
  if file_path ∉ s.processed ∧ file_path ∉ s.queue then
    { s with queue := s.queue ++ [file_path] }
  else s

/-- `ThumbnailWorker.enqueue_batch`: the source loops over `paths` applying
the same guarded append as `enqueue` (with a single wake-up at the end,
which carries no state). -/
def enqueue_batch (s : WState) (paths : List String) : WState :=
  paths.foldl
    (fun st fp =>
      if fp ∉ st.processed ∧ fp ∉ st.queue then
        { st with queue := st.queue ++ [fp] }
      else st)
    s

/-- `ThumbnailWorker.prioritize`: `front` is `[p for p in paths if p in
set(self._queue)]`, `rest` is `[p for p in self._queue if p not in pset]`,
and the new queue is `front + rest`. -/
def prioritize (s : WState) (paths : List String) : WState :=
  let front := paths.filter (fun p => p ∈ s.queue)
  let rest := s.queue.filter (fun p => p ∉ paths)
  { s with queue := front ++ rest }

/-- `ThumbnailWorker.invalidate`: `self._processed.discard(path)`. -/
def invalidate (s : WState) (path : String) : WState :=
  { s with processed := s.processed.erase path }

/-! ## Worker environment and processing loop

`Disk` models what `_load_or_generate` consults: `cache` is the set of
source paths whose cache file exists *and* decodes to a non-null image
(`cp.exists()` and `QImage(cp)` non-null), and `genOk p` tells whether a
fresh generation from the source file `p` (`_image_thumb` / `_video_thumb`)
yields a non-null image. -/

structure Disk where
  cache : Finset String
  genOk : String → Bool

/-- How a successful preview for a path was obtained. -/
inductive ThumbResult where
  | fromCache
  | fresh
deriving DecidableEq, Repr

/-- `ThumbnailWorker._load_or_generate`: return the cached image when the
cache file exists and decodes; otherwise attempt a fresh generation from the
source file, persisting a successful result to the cache.  The result
records which branch produced the image; `none` is a swallowed failure. -/
def load_or_generate (d : Disk) (file_path : String) :
    Option ThumbResult × Disk :=
  if file_path ∈ d.cache then (some .fromCache, d)
  else if d.genOk file_path then
    (some .fresh, { d with cache := insert file_path d.cache })
  else (none, d)

/-- Whole-system state: worker state, disk environment, and the log of
`thumbnail_ready` emissions in order. -/
structure Sys where
  ws : WState
  disk : Disk
  emitted : List (String × ThumbResult)

def enqueueS (s : Sys) (p : String) : Sys := { s with ws := enqueue s.ws p }

def enqueueBatchS (s : Sys) (ps : List String) : Sys :=
  { s with ws := enqueue_batch s.ws ps }

def prioritizeS (s : Sys) (ps : List String) : Sys :=
  { s with ws := prioritize s.ws ps }

def invalidateS (s : Sys) (p : String) : Sys :=
  { s with ws := invalidate s.ws p }

/-- One iteration of the body of `ThumbnailWorker.run` when the queue is
non-empty: pop the head; if it is already processed, skip silently;
otherwise mark it processed (before any generation work), run
`_load_or_generate`, and emit on success.  Exceptions are swallowed
(`except Exception: pass`), i.e. the `none` branch emits nothing. -/
def stepS (s : Sys) : Sys :=
  match s.ws.queue with
  | [] => s
  | file_path :: rest =>
    if file_path ∈ s.ws.processed then
      { s with ws := { s.ws with queue := rest } }
    else
      let ws' : WState := ⟨rest, insert file_path s.ws.processed⟩
      match load_or_generate s.disk file_path with
      | (some t, d') =>
        ⟨ws', d', s.emitted ++ [(file_path, t)]⟩
      | (none, d') => ⟨ws', d', s.emitted⟩

/-- Run the worker loop until the queue is drained (each `stepS` on a
non-empty queue pops exactly one element). -/
def runAll (s : Sys) : Sys := stepS^[s.ws.queue.length] s

/-- Sequential processing of a list of pending paths against a disk:
the emissions `runAll` produces for a queue none of whose elements is
already processed. -/
def processList (d : Disk) : List String → List (String × ThumbResult)
  | [] => []
  | p :: ps =>
    match load_or_generate d p with
    | (some t, d') => (p, t) :: processList d' ps
    | (none, d') => processList d' ps

/-- The disk after sequentially processing a list of pending paths. -/
def processDisk (d : Disk) : List String → Disk
  | [] => d
  | p :: ps => processDisk (load_or_generate d p).2 ps

/-- Number of emitted previews for a given path in an emission log. -/
def countEmitted (em : List (String × ThumbResult)) (p : String) : Nat :=
  (em.filter (fun e => e.1 = p)).length

/-- `_load_or_generate` returns an image exactly when the cache holds the
path or fresh generation succeeds. -/
def loadOk (d : Disk) (p : String) : Prop :=
  p ∈ d.cache ∨ d.genOk p = true

/-! ### Basic lemmas about the worker loop -/

theorem load_or_generate_genOk (d : Disk) (p : String) :
    ((load_or_generate d p).2).genOk = d.genOk := by
  unfold load_or_generate
  split <;> [rfl; split <;> rfl]

theorem load_or_generate_cache_mono (d : Disk) (p : String) :
    d.cache ⊆ ((load_or_generate d p).2).cache := by
  unfold load_or_generate
  split
  · exact Finset.Subset.refl _
  · split
    · exact Finset.subset_insert _ _
    · exact Finset.Subset.refl _

theorem load_or_generate_some_of_loadOk (d : Disk) (p : String) (h : loadOk d p) :
    ∃ t, (load_or_generate d p).1 = some t := by
  unfold load_or_generate
  rcases h with h | h
  · exact ⟨.fromCache, by simp [h]⟩
  · by_cases hc : p ∈ d.cache
    · exact ⟨.fromCache, by simp [hc]⟩
    · exact ⟨.fresh, by simp [hc, h]⟩

theorem processDisk_genOk (d : Disk) (q : List String) :
    (processDisk d q).genOk = d.genOk := by
  induction q generalizing d with
  | nil => rfl
  | cons p ps ih => rw [processDisk, ih, load_or_generate_genOk]

theorem processDisk_cache_mono (d : Disk) (q : List String) :
    d.cache ⊆ (processDisk d q).cache := by
  induction q generalizing d with
  | nil => exact Finset.Subset.refl _
  | cons p ps ih =>
    rw [processDisk]
    exact (load_or_generate_cache_mono d p).trans (ih _)

theorem processList_append (d : Disk) (xs ys : List String) :
    processList d (xs ++ ys)
      = processList d xs ++ processList (processDisk d xs) ys := by
  induction xs generalizing d with
  | nil => rfl
  | cons p xs ih =>
    simp only [List.cons_append, processList, processDisk]
    rcases h : load_or_generate d p with ⟨r, d'⟩
    cases r <;> simp [h, ih]

theorem processList_fst_mem (d : Disk) (q : List String) :
    ∀ e ∈ processList d q, e.1 ∈ q := by
  induction q generalizing d with
  | nil => intro e he; simp [processList] at he
  | cons p ps ih =>
    intro e he
    rw [processList] at he
    rcases h : load_or_generate d p with ⟨r, d'⟩
    rw [h] at he
    cases r with
    | none => exact List.mem_cons_of_mem _ (ih d' e he)
    | some t =>
      rcases List.mem_cons.1 he with rfl | he'
      · exact List.mem_cons_self _ _
      · exact List.mem_cons_of_mem _ (ih d' e he')

theorem countEmitted_append (em₁ em₂ : List (String × ThumbResult)) (p : String) :
    countEmitted (em₁ ++ em₂) p = countEmitted em₁ p + countEmitted em₂ p := by
  simp [countEmitted, List.filter_append]

theorem countEmitted_eq_zero_of_not_mem (d : Disk) (q : List String) (p : String)
    (hp : p ∉ q) : countEmitted (processList d q) p = 0 := by
  rw [countEmitted, List.length_eq_zero, List.filter_eq_nil_iff]
  intro e he hpe
  exact hp (by simpa [of_decide_eq_true hpe] using processList_fst_mem d q e he)

/-- One non-skipped iteration of the worker body. -/
theorem stepS_cons (p : String) (rest : List String) (proc : Finset String)
    (d : Disk) (em : List (String × ThumbResult)) (hp : p ∉ proc) :
    stepS ⟨⟨p :: rest, proc⟩, d, em⟩
      = ⟨⟨rest, insert p proc⟩, (load_or_generate d p).2,
          em ++ ((load_or_generate d p).1.map (fun t => (p, t))).toList⟩ := by
  simp only [stepS]
  rcases h : load_or_generate d p with ⟨r, d'⟩
  cases r <;> simp [hp, h]

/-- Running the worker to completion on a duplicate-free queue whose
elements are not yet processed: the queue drains, each element is marked
processed, and the emissions are exactly `processList`. -/
theorem runAll_eq (q : List String) :
    ∀ (proc : Finset String) (d : Disk) (em : List (String × ThumbResult)),
      q.Nodup → (∀ p ∈ q, p ∉ proc) →
      runAll ⟨⟨q, proc⟩, d, em⟩
        = ⟨⟨[], q.foldl (fun t p => insert p t) proc⟩, processDisk d q,
            em ++ processList d q⟩ := by
  induction q with
  | nil =>
    intro proc d em _ _
    simp [runAll, processDisk, processList]
  | cons p rest ih =>
    intro proc d em hnd hdisj
    have hp : p ∉ proc := hdisj p (List.mem_cons_self _ _)
    have hpr : p ∉ rest := (List.nodup_cons.1 hnd).1
    have hrest : rest.Nodup := (List.nodup_cons.1 hnd).2
    have h2 : ∀ x ∈ rest, x ∉ insert p proc := by
      intro x hx
      simp only [Finset.mem_insert, not_or]
      exact ⟨by rintro rfl; exact hpr hx, hdisj x (List.mem_cons_of_mem _ hx)⟩
    have h1 : runAll ⟨⟨p :: rest, proc⟩, d, em⟩
        = stepS^[rest.length] (stepS ⟨⟨p :: rest, proc⟩, d, em⟩) := by
      simp only [runAll, List.length_cons, Function.iterate_succ_apply]
    rw [h1, stepS_cons p rest proc d em hp]
    rcases h : load_or_generate d p with ⟨r, d'⟩
    dsimp only
    have hrun : stepS^[rest.length]
          (⟨⟨rest, insert p proc⟩, d', em ++ (r.map (fun t => (p, t))).toList⟩ : Sys)
        = runAll ⟨⟨rest, insert p proc⟩, d', em ++ (r.map (fun t => (p, t))).toList⟩ :=
      rfl
    rw [hrun, ih (insert p proc) d' _ hrest h2]
    cases r <;> simp [processDisk, processList, h]

/-! ## Operation sequences (for the queue/processed disjointness claim) -/

/-- The public operations of `ThumbnailWorker` plus one iteration of the
worker loop. -/
inductive Op where
  | enq : String → Op
  | enqBatch : List String → Op
  | prio : List String → Op
  | inval : String → Op
  | step : Op
deriving DecidableEq

def applyOp (s : Sys) : Op → Sys
  | .enq p => enqueueS s p
  | .enqBatch ps => enqueueBatchS s ps
  | .prio ps => prioritizeS s ps
  | .inval p => invalidateS s p
  | .step => stepS s

def applyOps (s : Sys) (ops : List Op) : Sys := ops.foldl applyOp s

/-- The pending queue has no duplicates and is disjoint from the processed
set. -/
def QPdisj (w : WState) : Prop :=
  w.queue.Nodup ∧ ∀ p ∈ w.queue, p ∉ w.processed

instance (w : WState) : Decidable (QPdisj w) := by
  unfold QPdisj; infer_instance

/-- An operation argument is well-formed when a `prioritize` call receives a
duplicate-free path list (any other operation is unrestricted). -/
def OpGood : Op → Prop
  | .prio ps => ps.Nodup
  | _ => True

instance (o : Op) : Decidable (OpGood o) := by
  cases o <;> (unfold OpGood; infer_instance)

theorem enqueue_QPdisj (w : WState) (p : String) (h : QPdisj w) :
    QPdisj (enqueue w p) := by
  obtain ⟨hnd, hdisj⟩ := h
  unfold enqueue
  split
  case isTrue hc =>
    refine ⟨?_, ?_⟩
    · simpa [List.nodup_append] using ⟨hnd, fun hmem => hc.2 hmem⟩
    · intro x hx
      rcases List.mem_append.1 hx with hx | hx
      · exact hdisj x hx
      · rw [List.mem_singleton.1 hx]; exact hc.1
  case isFalse => exact ⟨hnd, hdisj⟩

theorem enqueue_batch_QPdisj (w : WState) (ps : List String) (h : QPdisj w) :
    QPdisj (enqueue_batch w ps) := by
  induction ps generalizing w with
  | nil => exact h
  | cons p ps ih =>
    have h1 : enqueue_batch w (p :: ps) = enqueue_batch (enqueue w p) ps := rfl
    rw [h1]
    exact ih _ (enqueue_QPdisj w p h)

theorem prioritize_QPdisj (w : WState) (ps : List String) (hps : ps.Nodup)
    (h : QPdisj w) : QPdisj (prioritize w ps) := by
  obtain ⟨hnd, hdisj⟩ := h
  unfold prioritize
  refine ⟨?_, ?_⟩
  · rw [List.nodup_append]
    refine ⟨hps.filter _, hnd.filter _, ?_⟩
    intro x hx hx'
    have h1 : x ∈ ps := (List.mem_filter.1 hx).1
    have h2 := (List.mem_filter.1 hx').2
    simp only [decide_not, Bool.not_eq_true', decide_eq_false_iff_not] at h2
    exact h2 h1
  · intro x hx
    rcases List.mem_append.1 hx with hx | hx
    · have := (List.mem_filter.1 hx).2
      simp only [decide_eq_true_eq] at this
      exact hdisj x this
    · exact hdisj x (List.mem_filter.1 hx).1

theorem invalidate_QPdisj (w : WState) (p : String) (h : QPdisj w) :
    QPdisj (invalidate w p) := by
  obtain ⟨hnd, hdisj⟩ := h
  refine ⟨hnd, fun x hx hmem => hdisj x hx (Finset.mem_of_mem_erase hmem)⟩

theorem stepS_QPdisj (s : Sys) (h : QPdisj s.ws) : QPdisj (stepS s).ws := by
  obtain ⟨hnd, hdisj⟩ := h
  rcases s with ⟨⟨q, proc⟩, d, em⟩
  cases q with
  | nil => exact ⟨hnd, hdisj⟩
  | cons p rest =>
    have hp : p ∉ proc := hdisj p (List.mem_cons_self _ _)
    rw [stepS_cons p rest proc d em hp]
    refine ⟨(List.nodup_cons.1 hnd).2, ?_⟩
    intro x hx
    simp only [Finset.mem_insert, not_or]
    exact ⟨by rintro rfl; exact (List.nodup_cons.1 hnd).1 hx,
      hdisj x (List.mem_cons_of_mem _ hx)⟩

theorem applyOps_QPdisj (ops : List Op) :
    ∀ s : Sys, QPdisj s.ws → (∀ o ∈ ops, OpGood o) → QPdisj (applyOps s ops).ws := by
  induction ops with
  | nil => intro s h _; exact h
  | cons o ops ih =>
    intro s h hgood
    have h1 : applyOps s (o :: ops) = applyOps (applyOp s o) ops := rfl
    rw [h1]
    refine ih _ ?_ (fun o' ho' => hgood o' (List.mem_cons_of_mem _ ho'))
    have hg := hgood o (List.mem_cons_self _ _)
    cases o with
    | enq p => exact enqueue_QPdisj s.ws p h
    | enqBatch ps => exact enqueue_batch_QPdisj s.ws ps h
    | prio ps => exact prioritize_QPdisj s.ws ps hg h
    | inval p => exact invalidate_QPdisj s.ws p h
    | step => exact stepS_QPdisj s h

/-! ## Claim theorems for the thumbnail worker -/

/-- **C7**: `enqueue_batch` leaves the pending queue and processed set in
exactly the state reached by calling `enqueue` on each element in order
(the two agree up to the single worker wake-up, which carries no state). -/
theorem claim_C7_enqueue_batch_refines_enqueue (s : WState) (ps : List String) :
    enqueue_batch s ps = ps.foldl enqueue s := rfl

/-- **C2 (counterexample)**: with path `p` queued once, `prioritize` called
with the duplicated argument list `[p, p]` yields the queue `[p, p]`: the
result is not a reordering (permutation) of the pending queue, so the claim
as stated — for *every* argument list — fails. -/
theorem claim_C2_counterexample :
    (prioritize ⟨["p"], ∅⟩ ["p", "p"]).queue = ["p", "p"] ∧
      ¬ (prioritize ⟨["p"], ∅⟩ ["p", "p"]).queue.Perm (WState.mk ["p"] ∅).queue := by
  exact ⟨by decide, by decide⟩

/-- What `prioritize` guarantees for a duplicate-free argument list: the new
queue is exactly the queued elements of `paths` (in `paths` order) followed
by the remaining queue elements (in their original order, a sublist), it is
a permutation of the old queue with the same members — so nothing is ever
re-added — and the processed set is untouched. -/
def prioritizeSpec (s : WState) (ps : List String) : Prop :=
  (prioritize s ps).queue
      = ps.filter (fun p => p ∈ s.queue) ++ s.queue.filter (fun p => p ∉ ps) ∧
    (prioritize s ps).queue.Perm s.queue ∧
    (∀ x, x ∈ (prioritize s ps).queue ↔ x ∈ s.queue) ∧
    List.Sublist (s.queue.filter (fun p => p ∉ ps)) s.queue ∧
    (prioritize s ps).processed = s.processed

/-- **C2 (amended)**: for duplicate-free argument lists (and queues without
duplicates, as the worker maintains), `prioritize` reorders the queue moving
exactly the queued elements of `paths` to the front, preserving the stated
relative orders, never re-adding a path not currently queued. -/
theorem claim_C2_amended (s : WState) (ps : List String)
    (hps : ps.Nodup) (hq : s.queue.Nodup) : prioritizeSpec s ps := by
  have hmem : ∀ x, x ∈ (prioritize s ps).queue ↔ x ∈ s.queue := by
    intro x
    simp only [prioritize, List.mem_append, List.mem_filter, decide_eq_true_eq,
      decide_not, Bool.not_eq_true', decide_eq_false_iff_not]
    constructor
    · rintro (⟨_, hx⟩ | ⟨hx, _⟩) <;> exact hx
    · intro hx
      by_cases hxp : x ∈ ps
      · exact Or.inl ⟨hxp, hx⟩
      · exact Or.inr ⟨hx, hxp⟩
  have hnd : (prioritize s ps).queue.Nodup := by
    unfold prioritize
    rw [List.nodup_append]
    refine ⟨hps.filter _, hq.filter _, ?_⟩
    intro x hx hx'
    have h1 : x ∈ ps := (List.mem_filter.1 hx).1
    have h2 := (List.mem_filter.1 hx').2
    simp only [decide_not, Bool.not_eq_true', decide_eq_false_iff_not] at h2
    exact h2 h1
  have hperm : (prioritize s ps).queue.Perm s.queue :=
    List.Subperm.antisymm
      (List.subperm_of_subset hnd (fun x hx => (hmem x).1 hx))
      (List.subperm_of_subset hq (fun x hx => (hmem x).2 hx))
  exact ⟨rfl, hperm, hmem, List.filter_sublist _, rfl⟩

/-- Witness for the amended C2 at a concrete input. -/
theorem claim_C2_amended_witness :
    (["a"] : List String).Nodup ∧ (WState.mk ["b", "a"] ∅).queue.Nodup ∧
      prioritizeSpec ⟨["b", "a"], ∅⟩ ["a"] :=
  ⟨by decide, by decide, claim_C2_amended ⟨["b", "a"], ∅⟩ ["a"] (by decide) (by decide)⟩

/-- What double `enqueue` guarantees: enqueueing an already-queued or
already-processed path is a no-op, a second `enqueue` of the same path
changes nothing, the path ends up queued exactly once, and a full run of
the worker emits exactly one (additional) preview for it. -/
def enqueueTwiceSpec (q : List String) (proc : Finset String) (d : Disk)
    (em : List (String × ThumbResult)) (p : String) : Prop :=
  (∀ (w : WState) (x : String), x ∈ w.queue ∨ x ∈ w.processed → enqueue w x = w) ∧
    (∀ (w : WState) (x : String), enqueue (enqueue w x) x = enqueue w x) ∧
    (enqueue (enqueue ⟨q, proc⟩ p) p).queue = q ++ [p] ∧
    countEmitted (runAll (enqueueS (enqueueS ⟨⟨q, proc⟩, d, em⟩ p) p)).emitted p
      = countEmitted em p + 1

/-- **C6**: `enqueue` is idempotent — a duplicate enqueue is a no-op on the
worker state — and enqueueing the same unprocessed path twice results in
exactly one generated and emitted preview for it (given that loading or
generating the preview succeeds). -/
theorem claim_C6_enqueue_idempotent (q : List String) (proc : Finset String)
    (d : Disk) (em : List (String × ThumbResult)) (p : String)
    (hq : q.Nodup) (hdisj : ∀ x ∈ q, x ∉ proc) (hp : p ∉ proc) (hpq : p ∉ q)
    (hok : loadOk d p) : enqueueTwiceSpec q proc d em p := by
  have noop : ∀ (w : WState) (x : String),
      x ∈ w.queue ∨ x ∈ w.processed → enqueue w x = w := by
    intro w x h
    unfold enqueue
    rw [if_neg]
    rintro ⟨h1, h2⟩
    rcases h with h | h
    · exact h2 h
    · exact h1 h
  have idem : ∀ (w : WState) (x : String), enqueue (enqueue w x) x = enqueue w x := by
    intro w x
    by_cases hc : x ∉ w.processed ∧ x ∉ w.queue
    · have e1 : enqueue w x = { w with queue := w.queue ++ [x] } := by
        unfold enqueue; rw [if_pos hc]
      rw [e1]
      exact noop _ x (Or.inl (by simp))
    · have e1 : enqueue w x = w := by unfold enqueue; rw [if_neg hc]
      rw [e1, e1]
  have e1 : enqueue ⟨q, proc⟩ p = ⟨q ++ [p], proc⟩ := by
    unfold enqueue; rw [if_pos ⟨hp, hpq⟩]
  have e2 : enqueue ⟨q ++ [p], proc⟩ p = ⟨q ++ [p], proc⟩ :=
    noop _ p (Or.inl (by simp))
  have hnd : (q ++ [p]).Nodup := by
    rw [List.nodup_append]
    exact ⟨hq, List.nodup_singleton p, by
      intro x hx hx'
      rw [List.mem_singleton.1 hx'] at hx
      exact hpq hx⟩
  have hdisj' : ∀ x ∈ q ++ [p], x ∉ proc := by
    intro x hx
    rcases List.mem_append.1 hx with hx | hx
    · exact hdisj x hx
    · rw [List.mem_singleton.1 hx]; exact hp
  have hsys : enqueueS (enqueueS ⟨⟨q, proc⟩, d, em⟩ p) p
      = ⟨⟨q ++ [p], proc⟩, d, em⟩ := by
    simp only [enqueueS, e1, e2]
  refine ⟨noop, idem, by rw [e1, e2], ?_⟩
  rw [hsys, runAll_eq (q ++ [p]) proc d em hnd hdisj']
  have hok' : loadOk (processDisk d q) p := by
    rcases hok with h | h
    · exact Or.inl (processDisk_cache_mono d q h)
    · exact Or.inr (by rw [processDisk_genOk]; exact h)
  obtain ⟨t, ht⟩ := load_or_generate_some_of_loadOk (processDisk d q) p hok'
  have hsingle : processList (processDisk d q) [p] = [(p, t)] := by
    rw [processList]
    rcases hh : load_or_generate (processDisk d q) p with ⟨r, d''⟩
    rw [hh] at ht
    simp only at ht
    rw [ht]
    rfl
  simp only [processList_append, countEmitted_append, hsingle,
    countEmitted_eq_zero_of_not_mem d q p hpq]
  simp [countEmitted]

/-- Witness for C6 at a concrete input. -/
theorem claim_C6_enqueue_idempotent_witness :
    (["b"] : List String).Nodup ∧ (∀ x ∈ (["b"] : List String), x ∉ (∅ : Finset String)) ∧
      ("a" : String) ∉ (∅ : Finset String) ∧ ("a" : String) ∉ (["b"] : List String) ∧
      loadOk ⟨∅, fun _ => true⟩ "a" ∧
      enqueueTwiceSpec ["b"] ∅ ⟨∅, fun _ => true⟩ [] "a" :=
  ⟨by decide, by decide, by decide, by decide, Or.inr rfl,
    claim_C6_enqueue_idempotent ["b"] ∅ ⟨∅, fun _ => true⟩ [] "a"
      (by decide) (by decide) (by decide) (by decide) (Or.inr rfl)⟩

/-- What the worker does with a dequeued path whose generation fails: the
path is marked processed immediately on dequeue (whatever the disk
environment holds, i.e. before and regardless of the generation outcome),
nothing is emitted, a later `enqueue` of the path is a no-op, and even a
full further run of the worker emits no preview for it. -/
def failureSpec (p : String) (rest : List String) (proc : Finset String)
    (d : Disk) (em : List (String × ThumbResult)) : Prop :=
  (∀ d0 : Disk, (stepS ⟨⟨p :: rest, proc⟩, d0, em⟩).ws.processed = insert p proc) ∧
    (stepS ⟨⟨p :: rest, proc⟩, d, em⟩).emitted = em ∧
    (∀ w : WState, p ∈ w.processed → enqueue w p = w) ∧
    countEmitted (runAll (enqueueS (stepS ⟨⟨p :: rest, proc⟩, d, em⟩) p)).emitted p
      = countEmitted em p

/-- **C8**: a dequeued path is marked processed before generation completes;
a generation failure is caught, emits nothing, leaves the path processed,
and a subsequent `enqueue` of that path emits nothing — no automatic retry
ever occurs. -/
theorem claim_C8_no_retry_on_failure (p : String) (rest : List String)
    (proc : Finset String) (d : Disk) (em : List (String × ThumbResult))
    (hp : p ∉ proc) (hrest : rest.Nodup) (hpr : p ∉ rest)
    (hdisj : ∀ x ∈ rest, x ∉ proc)
    (hcache : p ∉ d.cache) (hgen : d.genOk p = false) :
    failureSpec p rest proc d em := by
  have hload : load_or_generate d p = (none, d) := by
    simp [load_or_generate, hcache, hgen]
  have hstep : stepS ⟨⟨p :: rest, proc⟩, d, em⟩ = ⟨⟨rest, insert p proc⟩, d, em⟩ := by
    rw [stepS_cons p rest proc d em hp, hload]
    simp
  refine ⟨?_, ?_, ?_, ?_⟩
  · intro d0
    rw [stepS_cons p rest proc d0 em hp]
  · rw [hstep]
  · intro w hw
    unfold enqueue
    rw [if_neg]
    rintro ⟨h1, _⟩
    exact h1 hw
  · rw [hstep]
    have henq : enqueueS ⟨⟨rest, insert p proc⟩, d, em⟩ p
        = ⟨⟨rest, insert p proc⟩, d, em⟩ := by
      simp only [enqueueS, enqueue]
      rw [if_neg]
      · rintro ⟨h1, _⟩
        exact h1 (Finset.mem_insert_self p proc)
    rw [henq, runAll_eq rest (insert p proc) d em hrest ?_]
    · simp [countEmitted_append, countEmitted_eq_zero_of_not_mem d rest p hpr]
    · intro x hx
      simp only [Finset.mem_insert, not_or]
      exact ⟨by rintro rfl; exact hpr hx, hdisj x hx⟩

/-- Witness for C8 at a concrete input. -/
theorem claim_C8_no_retry_on_failure_witness :
    ("a" : String) ∉ (∅ : Finset String) ∧ (["b"] : List String).Nodup ∧
      ("a" : String) ∉ (["b"] : List String) ∧
      (∀ x ∈ (["b"] : List String), x ∉ (∅ : Finset String)) ∧
      ("a" : String) ∉ (Disk.mk ∅ (fun _ => false)).cache ∧
      (Disk.mk ∅ (fun _ => false)).genOk "a" = false ∧
      failureSpec "a" ["b"] ∅ ⟨∅, fun _ => false⟩ [] :=
  ⟨by decide, by decide, by decide, by decide, by decide, rfl,
    claim_C8_no_retry_on_failure "a" ["b"] ∅ ⟨∅, fun _ => false⟩ []
      (by decide) (by decide) (by decide) (by decide) (by decide) rfl⟩

/-- The disk environment for the C1 scenario: empty cache directory, and a
source file that always generates successfully. -/
def c1Disk : Disk := ⟨∅, fun _ => true⟩

/-- The system after the first successful generation of path `"P"`:
enqueue it and run one worker iteration. -/
def c1AfterFirst : Sys := stepS (enqueueS ⟨⟨[], ∅⟩, c1Disk, []⟩ "P")

/-- The system after `invalidate("P")`, `enqueue("P")` and running the
worker to completion, starting from `c1AfterFirst`. -/
def c1Final : Sys := runAll (enqueueS (invalidateS c1AfterFirst "P") "P")

/-- **C1 (evaluation at the failing input)**: after a prior *successful*
preview for `"P"` (so `"P"` is in the processed set and its cache file is
on disk), `invalidate("P")` leaves the on-disk cache untouched and a
subsequent `enqueue("P")` makes the worker serve the existing cached file
(`fromCache`) — no fresh generation from the source file occurs, contrary
to the claim and to the code's own docstrings ("so it can be re-generated",
"so it regenerates"). -/
theorem claim_C1_stale_cache_served :
    c1AfterFirst.emitted = [("P", .fresh)] ∧
      ("P" : String) ∈ c1AfterFirst.ws.processed ∧
      c1AfterFirst.disk.cache = {"P"} ∧
      (invalidateS c1AfterFirst "P").disk.cache = c1AfterFirst.disk.cache ∧
      ("P" : String) ∉ (invalidateS c1AfterFirst "P").ws.processed ∧
      c1Final.emitted = [("P", .fresh), ("P", .fromCache)] := by
  decide

/-- The worker state after `enqueue("p")`, `prioritize(["p", "p"])` and one
worker iteration, from the initial state. -/
def c10Final : Sys :=
  applyOps ⟨⟨[], ∅⟩, ⟨∅, fun _ => true⟩, []⟩ [.enq "p", .prio ["p", "p"], .step]

/-- **C10 (counterexample)**: the operation sequence `enqueue("p")`,
`prioritize(["p", "p"])`, one dequeue-and-process step, starting from the
initial state, leaves `"p"` simultaneously in the pending queue and in the
processed set — `prioritize` with a duplicated argument list duplicates a
queued path, breaking the disjointness invariant as claimed. -/
theorem claim_C10_counterexample :
    ("p" : String) ∈ c10Final.ws.queue ∧ ("p" : String) ∈ c10Final.ws.processed := by
  decide

/-- **C10 (amended)**: starting from the initial worker state, after every
sequence of public operations and worker steps in which each `prioritize`
call receives a duplicate-free path list, the pending queue has no
duplicates and is disjoint from the processed set. -/
theorem claim_C10_amended (c : Finset String) (g : String → Bool)
    (ops : List Op) (h : ∀ o ∈ ops, OpGood o) :
    QPdisj (applyOps ⟨⟨[], ∅⟩, ⟨c, g⟩, []⟩ ops).ws :=
  applyOps_QPdisj ops _ ⟨List.nodup_nil, by intro p hp; cases hp⟩ h

/-- Witness for the amended C10 at a concrete operation sequence. -/
theorem claim_C10_amended_witness :
    (∀ o ∈ [Op.enq "p", Op.enqBatch ["q", "p"], Op.prio ["q"], Op.step,
        Op.inval "p"], OpGood o) ∧
      QPdisj (applyOps ⟨⟨[], ∅⟩, ⟨∅, fun _ => true⟩, []⟩
        [Op.enq "p", Op.enqBatch ["q", "p"], Op.prio ["q"], Op.step,
          Op.inval "p"]).ws :=
  ⟨by decide, claim_C10_amended ∅ (fun _ => true) _ (by decide)⟩

/-! ## Scanner (`ScannerWorker` in `src/scanner.py`, `MediaItem` in
`src/models.py`, extension tables in `src/config.py`)

Paths are lists of components; `pathStr` renders the absolute path string.
The filesystem is a symlink-free directory tree, so `Path.resolve()` is the
identity on the rendered absolute path.  `os.stat` results live on the file
node (`none` models an `OSError`). -/

/-- `IMAGE_EXTENSIONS` from `src/config.py`. -/
def IMAGE_EXTENSIONS : List String := [".jpg", ".jpeg", ".png", ".bmp", ".webp", ".gif"]

/-- `VIDEO_EXTENSIONS` from `src/config.py`. -/
def VIDEO_EXTENSIONS : List String := [".mp4", ".mkv", ".mov", ".avi", ".webm"]

/-- The scanner's `all_ext = IMAGE_EXTENSIONS | VIDEO_EXTENSIONS`. -/
def ALL_EXTENSIONS : List String := IMAGE_EXTENSIONS ++ VIDEO_EXTENSIONS

/-- `_SKIP_DIRS` from `src/scanner.py`. -/
def SKIP_DIRS : List String :=
  ["$RECYCLE.BIN", "System Volume Information", "AppData", ".git",
    "__pycache__", "node_modules", ".venv", "venv"]

/-- `BATCH_SIZE` from `src/scanner.py`. -/
def BATCH_SIZE : Nat := 40

/-- ASCII lowercasing of a string, character by character (Python
`str.lower()` on extension strings). -/
def toLowerStr (s : String) : String := ⟨s.data.map Char.toLower⟩

/-- `pathlib.Path(name).suffix`: the final `"."`-suffix of the last path
component, empty when there is no dot, when the name starts with its only
dot (hidden files like `".bashrc"`), or when the name ends in a dot. -/
def suffixOf (name : String) : String :=
  let cs := name.data
  let r := cs.reverse.takeWhile (fun c => c ≠ '.')
  if 0 < r.length ∧ r.length ≤ cs.length - 2 then ⟨'.' :: r.reverse⟩
  else ""

/-- `fpath.suffix.lower()` as used in the scanner and in
`MediaItem.from_path`. -/
def suffixLower (name : String) : String := toLowerStr (suffixOf name)

/-- Python `d.startswith(".")` on a directory name. -/
def startsWithDot (s : String) : Bool :=
  match s.data with
  | [] => false
  | c :: _ => c = '.'

/-- The pruning filter of `ScannerWorker.run`: keep `d` iff
`d not in _SKIP_DIRS and not d.startswith(".")`. -/
def keepDir (d : String) : Bool := !(d ∈ SKIP_DIRS : Bool) && !startsWithDot d

/-- `os.stat` metadata used by `MediaItem.from_path` (timestamps and size
as naturals). -/
structure StatInfo where
  ctime : Nat
  mtime : Nat
  size : Nat
deriving DecidableEq

/-- A file in a directory: its name and its stat result (`none` models an
`OSError` from `Path.stat()`). -/
structure FileNode where
  name : String
  stat : Option StatInfo
deriving DecidableEq

/-- A directory tree: name, directly contained files, subdirectories. -/
inductive FSTree where
  | node : String → List FileNode → List FSTree → FSTree

def FSTree.name : FSTree → String
  | .node n _ _ => n

def FSTree.subdirs : FSTree → List FSTree
  | .node _ _ ds => ds

/-- Render a component path as an absolute path string. -/
def pathStr (comps : List String) : String := "/" ++ String.intercalate "/" comps

/-- `Path(...).name` of a component path (empty for the root). -/
def lastName (comps : List String) : String := (comps.getLast?).getD ""

/-- The `root_path.relative_to(self.hidden_dir)` test of the scanner:
succeeds exactly when the hidden directory is configured and is a
component-wise prefix of (or equal to) the visited directory. -/
def underHidden (hidden : Option (List String)) (cur : List String) : Bool :=
  match hidden with
  | none => false
  | some hd => hd.isPrefixOf cur

mutual
/-- The `os.walk(folder, topdown=True)` traversal as consumed by
`ScannerWorker.run`: at each visited directory, skip it entirely (with its
subtree) when it is under the hidden directory, otherwise list its files
and then descend, in order, into exactly the subdirectories kept by the
pruning filter. -/
def walkT (hidden : Option (List String)) (cur : List String) :
    FSTree → List (List String × FileNode)
  | .node _ fs subs =>
    if underHidden hidden cur then []
    else fs.map (fun f => (cur, f)) ++ walkL hidden cur subs

/-- Walk each subdirectory of a visited directory that survives pruning. -/
def walkL (hidden : Option (List String)) (cur : List String) :
    List FSTree → List (List String × FileNode)
  | [] => []
  | d :: ds =>
    (if keepDir d.name then walkT hidden (cur ++ [d.name]) d else [])
      ++ walkL hidden cur ds
end

mutual
/-- All physical files of a tree, with the directory path of each — no
pruning, no hidden-directory check (used to state what the scanner does
*not* visit). -/
def allFilesT (cur : List String) : FSTree → List (List String × FileNode)
  | .node _ fs subs => fs.map (fun f => (cur, f)) ++ allFilesL cur subs

/-- All physical files of a list of subdirectories. -/
def allFilesL (cur : List String) : List FSTree → List (List String × FileNode)
  | [] => []
  | d :: ds => allFilesT (cur ++ [d.name]) d ++ allFilesL cur ds
end

/-- Look up the directory node at a component path (`folder.exists() and
folder.is_dir()` of a scan root: `none` when no such directory). -/
def lookupDir : FSTree → List String → Option FSTree
  | t, [] => some t
  | t, c :: cs =>
    match t.subdirs.find? (fun d => d.name = c) with
    | some d => lookupDir d cs
    | none => none

/-- The sequence of (directory, file) pairs the scanner's inner loop
visits: each configured root in caller order, silently skipping roots that
do not exist as directories. -/
def scanEvents (roots : List (List String)) (hidden : Option (List String))
    (fs : FSTree) : List (List String × FileNode) :=
  (roots.map (fun r =>
    match lookupDir fs r with
    | some t => walkT hidden r t
    | none => [])).flatten

/-- `MediaItem` from `src/models.py`. -/
structure MediaItem where
  path : String
  name : String
  media_type : String
  created : Nat
  modified : Nat
  size : Nat
  folder : String
  folder_path : String
deriving DecidableEq

/-- `MediaItem.from_path`: `None` on a failed stat, classify by the
lowercased suffix against the two extension tables, `None` for any other
extension. -/
def MediaItem.from_path (comps : List String) (node : FileNode) :
    Option MediaItem :=
  match node.stat with
  | none => none
  | some st =>
    let ext := suffixLower (lastName comps)
    if ext ∈ IMAGE_EXTENSIONS then
      some ⟨pathStr comps, lastName comps, "photo", st.ctime, st.mtime, st.size,
        lastName comps.dropLast, pathStr comps.dropLast⟩
    else if ext ∈ VIDEO_EXTENSIONS then
      some ⟨pathStr comps, lastName comps, "video", st.ctime, st.mtime, st.size,
        lastName comps.dropLast, pathStr comps.dropLast⟩
    else none

/-- The loop state of `ScannerWorker.run`: running count, current buffer,
visited resolved paths, and the batches emitted so far via `items_found`. -/
structure ScanState where
  count : Nat
  batch : List MediaItem
  visited : Finset String
  batches : List (List MediaItem)

def initScan : ScanState := ⟨0, [], ∅, []⟩

/-- The per-file body of `ScannerWorker.run` (lines 89–116): extension
filter, resolve (identity in this symlink-free model), dedup against
`visited`, `MediaItem.from_path`, buffer append, count increment, and a
flush of the buffer as a batch once it reaches `BATCH_SIZE`. -/
def procFile (st : ScanState) (ev : List String × FileNode) : ScanState :=
  let ext := suffixLower ev.2.name
  if ext ∈ ALL_EXTENSIONS then
    let resolved := pathStr (ev.1 ++ [ev.2.name])
    if resolved ∈ st.visited then st
    else
      let st1 : ScanState := { st with visited := insert resolved st.visited }
      match MediaItem.from_path (ev.1 ++ [ev.2.name]) ev.2 with
      | none => st1
      | some item =>
        let b := st1.batch ++ [item]
        if BATCH_SIZE ≤ b.length then
          { st1 with count := st1.count + 1, batch := [], batches := st1.batches ++ [b] }
        else { st1 with count := st1.count + 1, batch := b }
  else st

/-- The scanner state after processing a sequence of visited files (a full
traversal, or any prefix of one when `stop()` cancels the scan). -/
def scanFold (evs : List (List String × FileNode)) : ScanState :=
  evs.foldl procFile initScan

/-- What the scanner delivers: the emitted batches and the total count. -/
structure ScanResult where
  batches : List (List MediaItem)
  total : Nat
deriving DecidableEq

/-- End of `ScannerWorker.run`: flush the remaining partial buffer if
non-empty, then emit `scan_finished` with the count. -/
def finishScan (st : ScanState) : ScanResult :=
  ⟨st.batches ++ (if st.batch.isEmpty then [] else [st.batch]), st.count⟩

/-- A complete scan over the given roots. -/
def scanRun (roots : List (List String)) (hidden : Option (List String))
    (fs : FSTree) : ScanResult :=
  finishScan (scanFold (scanEvents roots hidden fs))

/-- All `MediaItem`s a scan delivers, in order. -/
def emitFlatten (st : ScanState) : List MediaItem := st.batches.flatten ++ st.batch

/-! ### Batching invariant (claim C3) -/

/-- Invariant of the scanner loop: every flushed batch has exactly
`BATCH_SIZE` items, the buffer is strictly below `BATCH_SIZE`, and the
count equals the number of buffered-and-flushed items. -/
def scanInv (st : ScanState) : Prop :=
  (∀ b ∈ st.batches, b.length = BATCH_SIZE) ∧ st.batch.length < BATCH_SIZE ∧
    st.count = BATCH_SIZE * st.batches.length + st.batch.length

theorem procFile_scanInv (st : ScanState) (ev : List String × FileNode)
    (h : scanInv st) : scanInv (procFile st ev) := by
  obtain ⟨h1, h2, h3⟩ := h
  by_cases hext : suffixLower ev.2.name ∈ ALL_EXTENSIONS
  · by_cases hvis : pathStr (ev.1 ++ [ev.2.name]) ∈ st.visited
    · simp only [procFile, if_pos hext, if_pos hvis]
      exact ⟨h1, h2, h3⟩
    · rcases hfp : MediaItem.from_path (ev.1 ++ [ev.2.name]) ev.2 with _ | item
      · simp only [procFile, if_pos hext, if_neg hvis, hfp]
        exact ⟨h1, h2, h3⟩
      · by_cases hlen : BATCH_SIZE ≤ (st.batch ++ [item]).length
        · simp only [procFile, if_pos hext, if_neg hvis, hfp, if_pos hlen]
          rw [List.length_append, List.length_singleton] at hlen
          refine ⟨?_, ?_, ?_⟩
          · intro b hb
            rcases List.mem_append.1 hb with hb | hb
            · exact h1 b hb
            · rw [List.mem_singleton.1 hb, List.length_append, List.length_singleton]
              omega
          · show (0 : Nat) < BATCH_SIZE
            simp [BATCH_SIZE]
          · simp only [List.length_append, List.length_singleton, List.length_nil,
              Nat.mul_succ]
            omega
        · simp only [procFile, if_pos hext, if_neg hvis, hfp, if_neg hlen]
          rw [List.length_append, List.length_singleton] at hlen
          refine ⟨h1, ?_, ?_⟩
          · simp only [List.length_append, List.length_singleton]
            omega
          · simp only [List.length_append, List.length_singleton]
            omega
  · simp only [procFile, if_neg hext]
    exact ⟨h1, h2, h3⟩

theorem scanInv_foldl (evs : List (List String × FileNode)) :
    ∀ st : ScanState, scanInv st → scanInv (evs.foldl procFile st) := by
  induction evs with
  | nil => intro st h; exact h
  | cons ev evs ih =>
    intro st h
    exact ih _ (procFile_scanInv st ev h)

theorem sum_map_length_const (l : List (List MediaItem)) (n : Nat)
    (h : ∀ b ∈ l, b.length = n) : (l.map List.length).sum = n * l.length := by
  induction l with
  | nil => simp
  | cons b l ih =>
    simp only [List.map_cons, List.sum_cons, List.length_cons]
    rw [h b (List.mem_cons_self _ _), ih (fun x hx => h x (List.mem_cons_of_mem _ hx))]
    ring

/-- **C3**: for every scan — a complete traversal or any cancelled prefix
of one, modelled as an arbitrary visited-file sequence — every emitted
batch has at most `BATCH_SIZE` (40) items, every mid-run flush happens at
exactly 40 items, the remaining partial buffer (strictly below 40) is
flushed at the end exactly when non-empty, and the completion count equals
the total number of entries across all emitted batches. -/
theorem claim_C3_batching (evs : List (List String × FileNode)) :
    (∀ b ∈ (finishScan (scanFold evs)).batches, b.length ≤ BATCH_SIZE) ∧
      (∀ b ∈ (scanFold evs).batches, b.length = BATCH_SIZE) ∧
      (scanFold evs).batch.length < BATCH_SIZE ∧
      (finishScan (scanFold evs)).batches
        = (scanFold evs).batches
          ++ (if (scanFold evs).batch.isEmpty then [] else [(scanFold evs).batch]) ∧
      (finishScan (scanFold evs)).total
        = ((finishScan (scanFold evs)).batches.map List.length).sum ∧
      (∀ (roots : List (List String)) (hidden : Option (List String)) (fs : FSTree),
        scanRun roots hidden fs = finishScan (scanFold (scanEvents roots hidden fs))) := by
  have hinv : scanInv (scanFold evs) :=
    scanInv_foldl evs initScan ⟨by simp [initScan], by simp [initScan, BATCH_SIZE],
      by simp [initScan]⟩
  obtain ⟨h1, h2, h3⟩ := hinv
  refine ⟨?_, h1, h2, rfl, ?_, fun _ _ _ => rfl⟩
  · intro b hb
    unfold finishScan at hb
    simp only [List.mem_append] at hb
    rcases hb with hb | hb
    · exact (h1 b hb).le
    · by_cases he : (scanFold evs).batch.isEmpty
      · rw [if_pos he] at hb
        cases hb
      · rw [if_neg he] at hb
        rw [List.mem_singleton.1 hb]
        exact h2.le
  · unfold finishScan
    by_cases he : (scanFold evs).batch.isEmpty
    · have hnil : (scanFold evs).batch = [] := by
        rwa [List.isEmpty_iff] at he
      simp only [if_pos he, List.append_nil]
      rw [sum_map_length_const _ _ h1, h3, hnil]
      simp [Nat.mul_comm]
    · simp only [if_neg he, List.map_append, List.sum_append]
      rw [sum_map_length_const _ _ h1, h3]
      simp [Nat.mul_comm]

/-! ### Which entries a scan emits (claims C4, C5) -/

theorem lastName_concat (l : List String) (a : String) : lastName (l ++ [a]) = a := by
  simp [lastName]

/-- The items the scanner constructs while processing a visited-file
sequence starting from visited set `v`, mirroring the branch structure of
`procFile` without the batching. -/
def emittedList (v : Finset String) :
    List (List String × FileNode) → List MediaItem
  | [] => []
  | ev :: evs =>
    if suffixLower ev.2.name ∈ ALL_EXTENSIONS then
      if pathStr (ev.1 ++ [ev.2.name]) ∈ v then emittedList v evs
      else
        match MediaItem.from_path (ev.1 ++ [ev.2.name]) ev.2 with
        | none => emittedList (insert (pathStr (ev.1 ++ [ev.2.name])) v) evs
        | some item =>
          item :: emittedList (insert (pathStr (ev.1 ++ [ev.2.name])) v) evs
    else emittedList v evs

theorem emitFlatten_foldl (evs : List (List String × FileNode)) :
    ∀ st : ScanState,
      emitFlatten (evs.foldl procFile st)
        = emitFlatten st ++ emittedList st.visited evs := by
  induction evs with
  | nil => intro st; simp [emittedList]
  | cons ev evs ih =>
    intro st
    rw [List.foldl_cons, ih]
    by_cases hext : suffixLower ev.2.name ∈ ALL_EXTENSIONS
    · by_cases hvis : pathStr (ev.1 ++ [ev.2.name]) ∈ st.visited
      · simp only [procFile, if_pos hext, if_pos hvis, emittedList]
      · rcases hfp : MediaItem.from_path (ev.1 ++ [ev.2.name]) ev.2 with _ | item
        · simp only [procFile, if_pos hext, if_neg hvis, hfp, emittedList,
            emitFlatten]
        · by_cases hlen : BATCH_SIZE ≤ (st.batch ++ [item]).length
          · simp only [procFile, if_pos hext, if_neg hvis, hfp, if_pos hlen,
              emittedList, emitFlatten]
            simp
          · simp only [procFile, if_pos hext, if_neg hvis, hfp, if_neg hlen,
              emittedList, emitFlatten]
            simp
    · simp only [procFile, if_neg hext, emittedList]

/-- Unpacking a successful `MediaItem.from_path`. -/
theorem from_path_some (comps : List String) (node : FileNode) (i : MediaItem)
    (h : MediaItem.from_path comps node = some i) :
    i.path = pathStr comps ∧ node.stat ≠ none ∧
      suffixLower (lastName comps) ∈ ALL_EXTENSIONS ∧
      i.folder_path = pathStr comps.dropLast ∧
      (i.media_type = "photo" ∨ i.media_type = "video") := by
  rcases hst : node.stat with _ | st
  · simp [MediaItem.from_path, hst] at h
  · simp only [MediaItem.from_path, hst] at h
    by_cases h1 : suffixLower (lastName comps) ∈ IMAGE_EXTENSIONS
    · rw [if_pos h1] at h
      obtain rfl := Option.some.inj h
      exact ⟨rfl, by simp [hst], by simp [ALL_EXTENSIONS, h1], rfl, Or.inl rfl⟩
    · rw [if_neg h1] at h
      by_cases h2 : suffixLower (lastName comps) ∈ VIDEO_EXTENSIONS
      · rw [if_pos h2] at h
        obtain rfl := Option.some.inj h
        exact ⟨rfl, by simp [hst], by simp [ALL_EXTENSIONS, h2], rfl, Or.inr rfl⟩
      · rw [if_neg h2] at h
        cases h

/-- `MediaItem.from_path` succeeds on a statable file with a media
extension, producing an item keyed by the path. -/
theorem from_path_isSome (comps : List String) (node : FileNode)
    (hstat : node.stat ≠ none)
    (hext : suffixLower (lastName comps) ∈ ALL_EXTENSIONS) :
    ∃ i, MediaItem.from_path comps node = some i ∧ i.path = pathStr comps := by
  rcases hst : node.stat with _ | st
  · exact absurd hst hstat
  · have hext' : suffixLower (lastName comps) ∈ IMAGE_EXTENSIONS
        ∨ suffixLower (lastName comps) ∈ VIDEO_EXTENSIONS := by
      have h := hext
      unfold ALL_EXTENSIONS at h
      exact List.mem_append.1 h
    simp only [MediaItem.from_path, hst]
    rcases hext' with h1 | h1
    · exact ⟨_, by rw [if_pos h1], rfl⟩
    · by_cases h2 : suffixLower (lastName comps) ∈ IMAGE_EXTENSIONS
      · exact ⟨_, by rw [if_pos h2], rfl⟩
      · exact ⟨_, by rw [if_neg h2, if_pos h1], rfl⟩

theorem emittedList_nodup (evs : List (List String × FileNode)) :
    ∀ v : Finset String,
      ((emittedList v evs).map (fun i => i.path)).Nodup ∧
        ∀ i ∈ emittedList v evs, i.path ∉ v := by
  induction evs with
  | nil => intro v; simp [emittedList]
  | cons ev evs ih =>
    intro v
    by_cases hext : suffixLower ev.2.name ∈ ALL_EXTENSIONS
    · by_cases hvis : pathStr (ev.1 ++ [ev.2.name]) ∈ v
      · simpa only [emittedList, if_pos hext, if_pos hvis] using ih v
      · rcases hfp : MediaItem.from_path (ev.1 ++ [ev.2.name]) ev.2 with _ | item
        · simp only [emittedList, if_pos hext, if_neg hvis, hfp]
          obtain ⟨hnd, hnotin⟩ := ih (insert (pathStr (ev.1 ++ [ev.2.name])) v)
          exact ⟨hnd, fun i hi hiv =>
            hnotin i hi (Finset.mem_insert_of_mem hiv)⟩
        · simp only [emittedList, if_pos hext, if_neg hvis, hfp, List.map_cons]
          obtain ⟨hnd, hnotin⟩ := ih (insert (pathStr (ev.1 ++ [ev.2.name])) v)
          have hipath : item.path = pathStr (ev.1 ++ [ev.2.name]) :=
            (from_path_some _ _ _ hfp).1
          refine ⟨List.nodup_cons.2 ⟨?_, hnd⟩, ?_⟩
          · intro hmem
            obtain ⟨j, hj, hjp⟩ := List.mem_map.1 hmem
            exact hnotin j hj (hjp ▸ hipath ▸ Finset.mem_insert_self _ _)
          · intro i hi
            rcases List.mem_cons.1 hi with rfl | hi'
            · rw [hipath]; exact hvis
            · exact fun hiv => hnotin i hi' (Finset.mem_insert_of_mem hiv)
    · simpa only [emittedList, if_neg hext] using ih v

theorem emittedList_sound (evs : List (List String × FileNode)) :
    ∀ v : Finset String, ∀ i ∈ emittedList v evs,
      ∃ ev ∈ evs, MediaItem.from_path (ev.1 ++ [ev.2.name]) ev.2 = some i := by
  induction evs with
  | nil => intro v i hi; simp [emittedList] at hi
  | cons ev evs ih =>
    intro v i hi
    by_cases hext : suffixLower ev.2.name ∈ ALL_EXTENSIONS
    · by_cases hvis : pathStr (ev.1 ++ [ev.2.name]) ∈ v
      · rw [emittedList, if_pos hext, if_pos hvis] at hi
        obtain ⟨ev', hev', h⟩ := ih v i hi
        exact ⟨ev', List.mem_cons_of_mem _ hev', h⟩
      · rcases hfp : MediaItem.from_path (ev.1 ++ [ev.2.name]) ev.2 with _ | item
        · rw [emittedList, if_pos hext, if_neg hvis, hfp] at hi
          obtain ⟨ev', hev', h⟩ := ih _ i hi
          exact ⟨ev', List.mem_cons_of_mem _ hev', h⟩
        · rw [emittedList, if_pos hext, if_neg hvis, hfp] at hi
          rcases List.mem_cons.1 hi with rfl | hi'
          · exact ⟨ev, List.mem_cons_self _ _, hfp⟩
          · obtain ⟨ev', hev', h⟩ := ih _ i hi'
            exact ⟨ev', List.mem_cons_of_mem _ hev', h⟩
    · rw [emittedList, if_neg hext] at hi
      obtain ⟨ev', hev', h⟩ := ih v i hi
      exact ⟨ev', List.mem_cons_of_mem _ hev', h⟩

/-- A visited-file sequence is consistent when two visits rendering the
same absolute path carry the same file node (true of any real filesystem;
overlapping scan roots revisit identical files). -/
def Consistent (evs : List (List String × FileNode)) : Prop :=
  ∀ ev ∈ evs, ∀ ev' ∈ evs,
    pathStr (ev.1 ++ [ev.2.name]) = pathStr (ev'.1 ++ [ev'.2.name]) → ev.2 = ev'.2

instance (evs : List (List String × FileNode)) : Decidable (Consistent evs) := by
  unfold Consistent
  infer_instance

theorem emittedList_complete (evs : List (List String × FileNode)) :
    Consistent evs → ∀ (v : Finset String), ∀ ev ∈ evs,
      suffixLower ev.2.name ∈ ALL_EXTENSIONS → ev.2.stat ≠ none →
      pathStr (ev.1 ++ [ev.2.name]) ∉ v →
      pathStr (ev.1 ++ [ev.2.name])
        ∈ (emittedList v evs).map (fun i => i.path) := by
  induction evs with
  | nil => intro _ v ev h; cases h
  | cons ev0 evs ih =>
    intro hcons v ev hev hext hstat hv
    have hconsTail : Consistent evs := fun a ha b hb =>
      hcons a (List.mem_cons_of_mem _ ha) b (List.mem_cons_of_mem _ hb)
    by_cases hext0 : suffixLower ev0.2.name ∈ ALL_EXTENSIONS
    · by_cases hvis0 : pathStr (ev0.1 ++ [ev0.2.name]) ∈ v
      · rcases List.mem_cons.1 hev with rfl | hev'
        · exact absurd hvis0 hv
        · rw [emittedList, if_pos hext0, if_pos hvis0]
          exact ih hconsTail v ev hev' hext hstat hv
      · rcases hfp : MediaItem.from_path (ev0.1 ++ [ev0.2.name]) ev0.2 with _ | item
        · have hstat0 : ev0.2.stat = none := by
            rcases hst : ev0.2.stat with _ | st
            · rfl
            · obtain ⟨i, hi, _⟩ := from_path_isSome (ev0.1 ++ [ev0.2.name]) ev0.2
                (by rw [hst]; exact fun hc => Option.noConfusion hc)
                (by rw [lastName_concat]; exact hext0)
              rw [hfp] at hi
              cases hi
          rcases List.mem_cons.1 hev with rfl | hev'
          · exact absurd hstat0 hstat
          · rw [emittedList, if_pos hext0, if_neg hvis0, hfp]
            refine ih hconsTail _ ev hev' hext hstat ?_
            simp only [Finset.mem_insert, not_or]
            refine ⟨fun heq => ?_, hv⟩
            have hnode := hcons ev (List.mem_cons_of_mem _ hev') ev0
              (List.mem_cons_self _ _) heq
            rw [hnode] at hstat
            exact hstat hstat0
        · rw [emittedList, if_pos hext0, if_neg hvis0, hfp, List.map_cons]
          have hipath : item.path = pathStr (ev0.1 ++ [ev0.2.name]) :=
            (from_path_some _ _ _ hfp).1
          rcases List.mem_cons.1 hev with rfl | hev'
          · exact List.mem_cons.2 (Or.inl hipath.symm)
          · by_cases heqp : pathStr (ev.1 ++ [ev.2.name])
                = pathStr (ev0.1 ++ [ev0.2.name])
            · exact List.mem_cons.2 (Or.inl (heqp.trans hipath.symm))
            · refine List.mem_cons.2 (Or.inr ?_)
              refine ih hconsTail _ ev hev' hext hstat ?_
              simp only [Finset.mem_insert, not_or]
              exact ⟨heqp, hv⟩
    · rcases List.mem_cons.1 hev with rfl | hev'
      · exact absurd hext hext0
      · rw [emittedList, if_neg hext0]
        exact ih hconsTail v ev hev' hext hstat hv

/-- The flattened batches of a finished scan are the buffered items. -/
theorem finishScan_flatten (st : ScanState) :
    (finishScan st).batches.flatten = emitFlatten st := by
  unfold finishScan emitFlatten
  by_cases he : st.batch.isEmpty
  · rw [if_pos he]
    simp [List.isEmpty_iff.1 he]
  · rw [if_neg he]
    simp

/-- The entries a complete scan emits, flattened across batches. -/
theorem scanRun_flatten (roots : List (List String))
    (hidden : Option (List String)) (fs : FSTree) :
    (scanRun roots hidden fs).batches.flatten
      = emittedList ∅ (scanEvents roots hidden fs) := by
  unfold scanRun
  rw [finishScan_flatten]
  have h := emitFlatten_foldl (scanEvents roots hidden fs) initScan
  simpa [scanFold, initScan, emitFlatten] using h

/-- The tree `/photos/a.jpg`, `/photos/.git/b.jpg`. -/
def c4Tree : FSTree :=
  .node "" []
    [.node "photos" [⟨"a.jpg", some ⟨0, 0, 0⟩⟩]
      [.node ".git" [⟨"b.jpg", some ⟨0, 0, 0⟩⟩] []]]

/-- **C4 (counterexample)**: `/photos/.git/b.jpg` is a physical file of the
tree under the scanned root, with a media extension and a successful stat,
yet scanning root `/photos` emits no entry for it — only `a.jpg`, total 1.
"Exactly one MediaEntry per physical file whose extension is in the set"
fails for files under pruned directories. -/
theorem claim_C4_counterexample :
    (["photos", ".git"], (⟨"b.jpg", some ⟨0, 0, 0⟩⟩ : FileNode))
        ∈ allFilesT [] c4Tree ∧
      suffixLower "b.jpg" ∈ ALL_EXTENSIONS ∧
      (FileNode.mk "b.jpg" (some ⟨0, 0, 0⟩)).stat ≠ none ∧
      ((scanRun [["photos"]] none c4Tree).batches.flatten.map (fun i => i.path))
        = ["/photos/a.jpg"] ∧
      (scanRun [["photos"]] none c4Tree).total = 1 := by
  refine ⟨?_, by decide, by decide, ?_, ?_⟩
  · simp +decide [allFilesT, allFilesL, c4Tree, FSTree.name]
  · simp +decide [scanRun, scanEvents, c4Tree, lookupDir, walkT, walkL,
      FSTree.subdirs, FSTree.name, keepDir, startsWithDot, underHidden]
  · simp +decide [scanRun, scanEvents, c4Tree, lookupDir, walkT, walkL,
      FSTree.subdirs, FSTree.name, keepDir, startsWithDot, underHidden]

/-- What a scan emits, relative to the visited-file sequence of its pruned
traversal: entry paths are pairwise distinct (deduplication across
overlapping roots); every entry arises from a visited file with a media
extension and a successful stat; and — on a consistent sequence — every
visited statable media file yields an entry.  With `prunedSpec` (C5) this
is the amended "exactly one entry per media file the pruned traversal
reaches, zero for any other extension". -/
def scanExactSpec (roots : List (List String)) (hidden : Option (List String))
    (fs : FSTree) : Prop :=
  (((scanRun roots hidden fs).batches.flatten).map (fun i => i.path)).Nodup ∧
    (∀ i ∈ (scanRun roots hidden fs).batches.flatten,
      ∃ ev ∈ scanEvents roots hidden fs,
        MediaItem.from_path (ev.1 ++ [ev.2.name]) ev.2 = some i ∧
          suffixLower ev.2.name ∈ ALL_EXTENSIONS) ∧
    (∀ ev ∈ scanEvents roots hidden fs,
      suffixLower ev.2.name ∈ ALL_EXTENSIONS → ev.2.stat ≠ none →
      pathStr (ev.1 ++ [ev.2.name])
        ∈ ((scanRun roots hidden fs).batches.flatten).map (fun i => i.path))

/-- **C4 (amended)**: for every file tree and root list whose visited-file
sequence is consistent (same absolute path, same file — true of real
filesystems, in particular under overlapping roots), the scanner emits
exactly one entry per statable media-extension file visited by the pruned
traversal, deduplicated by canonical path, and zero entries for any file
with any other extension. -/
theorem claim_C4_amended (roots : List (List String))
    (hidden : Option (List String)) (fs : FSTree)
    (hcons : Consistent (scanEvents roots hidden fs)) :
    scanExactSpec roots hidden fs := by
  refine ⟨?_, ?_, ?_⟩
  · rw [scanRun_flatten]
    exact (emittedList_nodup _ ∅).1
  · intro i hi
    rw [scanRun_flatten] at hi
    obtain ⟨ev, hev, hfp⟩ := emittedList_sound _ ∅ i hi
    refine ⟨ev, hev, hfp, ?_⟩
    have h := (from_path_some _ _ _ hfp).2.2.1
    rwa [lastName_concat] at h
  · intro ev hev hext hstat
    rw [scanRun_flatten]
    exact emittedList_complete _ hcons ∅ ev hev hext hstat (Finset.not_mem_empty _)

/-- A tree scanned through two overlapping roots (`/photos` and
`/photos/sub`). -/
def c4WTree : FSTree :=
  .node "" []
    [.node "photos" [⟨"a.jpg", some ⟨1, 2, 3⟩⟩, ⟨"c.txt", some ⟨0, 0, 0⟩⟩]
      [.node "sub" [⟨"b.mp4", some ⟨4, 5, 6⟩⟩] []]]

/-- Witness for the amended C4: overlapping roots over `c4WTree`. -/
theorem claim_C4_amended_witness :
    Consistent (scanEvents [["photos"], ["photos", "sub"]] none c4WTree) ∧
      scanExactSpec [["photos"], ["photos", "sub"]] none c4WTree := by
  have hev : scanEvents [["photos"], ["photos", "sub"]] none c4WTree =
      [(["photos"], ⟨"a.jpg", some ⟨1, 2, 3⟩⟩),
        (["photos"], ⟨"c.txt", some ⟨0, 0, 0⟩⟩),
        (["photos", "sub"], ⟨"b.mp4", some ⟨4, 5, 6⟩⟩),
        (["photos", "sub"], ⟨"b.mp4", some ⟨4, 5, 6⟩⟩)] := by
    simp +decide [scanEvents, lookupDir, walkT, walkL, c4WTree, FSTree.subdirs,
      FSTree.name, keepDir, startsWithDot, underHidden]
  have hcons : Consistent (scanEvents [["photos"], ["photos", "sub"]] none c4WTree) := by
    rw [Consistent, hev]
    decide
  exact ⟨hcons, claim_C4_amended [["photos"], ["photos", "sub"]] none c4WTree hcons⟩

/-! ### Pruning (claim C5) -/

theorem keepDir_eq_true (c : String) :
    keepDir c = true ↔ c ∉ SKIP_DIRS ∧ startsWithDot c = false := by
  simp [keepDir, Bool.and_eq_true, Bool.not_eq_true']

theorem mem_walkL (hidden : Option (List String)) (cur : List String) :
    ∀ (ts : List FSTree), ∀ e ∈ walkL hidden cur ts,
      ∃ d ∈ ts, keepDir d.name = true ∧ e ∈ walkT hidden (cur ++ [d.name]) d := by
  intro ts
  induction ts with
  | nil =>
    intro e he
    rw [walkL] at he
    cases he
  | cons d ds ih =>
    intro e he
    rw [walkL] at he
    rcases List.mem_append.1 he with he | he
    · by_cases hk : keepDir d.name = true
      · rw [if_pos hk] at he
        exact ⟨d, List.mem_cons_self _ _, hk, he⟩
      · rw [if_neg hk] at he
        cases he
    · obtain ⟨d', hd', hk, he'⟩ := ih e he
      exact ⟨d', List.mem_cons_of_mem _ hd', hk, he'⟩

/-- Every file the pruned walk yields sits at the walk's start directory
extended by components that all survive the pruning filter, and its
directory is never under the hidden subtree. -/
theorem walk_clean (hidden : Option (List String)) :
    ∀ (n : Nat) (t : FSTree) (cur : List String), sizeOf t ≤ n →
      ∀ e ∈ walkT hidden cur t,
        underHidden hidden e.1 = false ∧
          ∃ rest, e.1 = cur ++ rest ∧ ∀ c ∈ rest, keepDir c = true := by
  intro n
  induction n with
  | zero =>
    intro t cur hsz e _
    rcases t with ⟨nm, fs, subs⟩
    simp at hsz
  | succ n ih =>
    intro t cur hsz e he
    rcases t with ⟨nm, fs, subs⟩
    rw [walkT] at he
    by_cases hh : underHidden hidden cur = true
    · rw [if_pos hh] at he
      cases he
    · rw [if_neg hh] at he
      rcases List.mem_append.1 he with he | he
      · obtain ⟨f, _, rfl⟩ := List.mem_map.1 he
        exact ⟨Bool.eq_false_iff.2 hh, [], by simp, fun c hc => absurd hc (List.not_mem_nil c)⟩
      · obtain ⟨d, hd, hk, he'⟩ := mem_walkL hidden cur subs e he
        have hd1 : sizeOf d < sizeOf subs := List.sizeOf_lt_of_mem hd
        have hd2 : sizeOf d ≤ n := by
          simp only [FSTree.node.sizeOf_spec] at hsz
          omega
        obtain ⟨hu, rest, heq, hkeep⟩ := ih d (cur ++ [d.name]) hd2 e he'
        refine ⟨hu, d.name :: rest, by simp [heq], ?_⟩
        intro c hc
        rcases List.mem_cons.1 hc with rfl | hc'
        · exact hk
        · exact hkeep c hc'

theorem mem_scanEvents (roots : List (List String))
    (hidden : Option (List String)) (fs : FSTree) :
    ∀ e ∈ scanEvents roots hidden fs,
      ∃ r ∈ roots, ∃ t, lookupDir fs r = some t ∧ e ∈ walkT hidden r t := by
  intro e he
  unfold scanEvents at he
  rw [List.mem_flatten] at he
  obtain ⟨l, hl, hel⟩ := he
  rw [List.mem_map] at hl
  obtain ⟨r, hr, rfl⟩ := hl
  rcases hlk : lookupDir fs r with _ | t
  · rw [hlk] at hel
    cases hel
  · rw [hlk] at hel
    exact ⟨r, hr, t, hlk, hel⟩

/-- Every emitted entry decomposes as scan root ++ clean components ++
file name: strictly below its root it passes only directories that survive
pruning (not deny-listed, not dot-prefixed), and its directory never lies
in the configured hidden subtree. -/
def prunedSpec (roots : List (List String)) (hidden : Option (List String))
    (fs : FSTree) : Prop :=
  ∀ i ∈ (scanRun roots hidden fs).batches.flatten,
    ∃ r ∈ roots, ∃ rest fname,
      i.path = pathStr (r ++ rest ++ [fname]) ∧
        (∀ c ∈ rest, c ∉ SKIP_DIRS ∧ startsWithDot c = false) ∧
        underHidden hidden (r ++ rest) = false

/-- **C5 (amended)**: deny-list and hidden-marker pruning applies to the
proper descendants of each scan root — no emitted entry passes through a
deny-listed or dot-prefixed directory strictly below its root — and no
emitted entry lies in the configured excluded subtree.  (The scan root
itself is not subject to the deny-list, which is what the counterexample
exhibits and what the amendment makes explicit.) -/
theorem claim_C5_pruned_amended (roots : List (List String))
    (hidden : Option (List String)) (fs : FSTree) :
    prunedSpec roots hidden fs := by
  intro i hi
  rw [scanRun_flatten] at hi
  obtain ⟨ev, hev, hfp⟩ := emittedList_sound _ ∅ i hi
  obtain ⟨r, hr, t, hlk, hwt⟩ := mem_scanEvents roots hidden fs ev hev
  obtain ⟨hu, rest, heq, hkeep⟩ := walk_clean hidden (sizeOf t) t r le_rfl ev hwt
  refine ⟨r, hr, rest, ev.2.name, ?_, ?_, ?_⟩
  · rw [(from_path_some _ _ _ hfp).1, heq]
  · intro c hc
    exact (keepDir_eq_true c).1 (hkeep c hc)
  · rw [← heq]
    exact hu

/-- The tree `/AppData/a.jpg`. -/
def c5Tree : FSTree := .node "" [] [.node "AppData" [⟨"a.jpg", some ⟨0, 0, 0⟩⟩] []]

/-- **C5 (counterexample)**: scanning the root `/AppData` — a directory
whose name is in the deny-list — emits the entry `/AppData/a.jpg`, which
lies under a deny-listed directory: the deny-list never applies to a scan
root itself, so the claim as stated (no emitted entry ever lies under a
deny-listed directory) fails. -/
theorem claim_C5_counterexample :
    "AppData" ∈ SKIP_DIRS ∧
      ((scanRun [["AppData"]] none c5Tree).batches.flatten.map (fun i => i.path))
        = ["/AppData/a.jpg"] ∧
      ((scanRun [["AppData"]] none c5Tree).batches.flatten.map
        (fun i => i.folder_path)) = ["/AppData"] := by
  refine ⟨by decide, ?_, ?_⟩ <;>
    simp +decide [scanRun, scanEvents, c5Tree, lookupDir, walkT, walkL,
      FSTree.subdirs, FSTree.name, keepDir, startsWithDot, underHidden]

/-! ## Thumbnail dimensions (claim C9)

`_image_thumb` calls Pillow's `Image.thumbnail((thumb_size, thumb_size),
LANCZOS)`; `_video_thumb` computes `scale = thumb_size / max(h, w)` and
`int(w * scale), int(h * scale)` itself.  Both size computations are
embedded below with real arithmetic modelled exactly over `ℚ`
(`int(·)` of a non-negative value is the floor). -/

/-- Pillow's `round_aspect(number, key)`: `max(min(floor(number),
ceil(number), key=key), 1)` — the candidate with the smaller key, the floor
on a tie (Python's `min` keeps the first argument), and at least 1. -/
def roundAspect (q : ℚ) (key : ℤ → ℚ) : ℤ :=
  max (if key ⌊q⌋ ≤ key ⌈q⌉ then ⌊q⌋ else ⌈q⌉) 1

/-- The output dimensions of Pillow's `Image.thumbnail((s, s), ...)` on a
`w × h` image, following Pillow's published algorithm: unchanged when the
image already fits, otherwise scale the larger side down to `s` and round
the other side by `round_aspect` against the aspect ratio `w / h`. -/
def pil_thumbnail_size (w h s : ℕ) : ℤ × ℤ :=
  if (s : ℤ) ≥ (w : ℤ) ∧ (s : ℤ) ≥ (h : ℤ) then ((w : ℤ), (h : ℤ))
  else
    let aspect : ℚ := (w : ℚ) / (h : ℚ)
    if (s : ℚ) / (s : ℚ) ≥ aspect then
      (roundAspect ((s : ℚ) * aspect) (fun n => |aspect - (n : ℚ) / (s : ℚ)|),
        (s : ℤ))
    else
      ((s : ℤ),
        roundAspect ((s : ℚ) / aspect)
          (fun n => if n = 0 then 0 else |aspect - (s : ℚ) / (n : ℚ)|))

/-- The output dimensions of `_video_thumb`'s resize of a `w × h` frame:
`scale = s / max(h, w)`, then `int(w * scale)` and `int(h * scale)`. -/
def video_thumb_size (w h s : ℕ) : ℤ × ℤ :=
  let scale : ℚ := (s : ℚ) / ((max h w : ℕ) : ℚ)
  (⌊(w : ℚ) * scale⌋, ⌊(h : ℚ) * scale⌋)

theorem roundAspect_le (q : ℚ) (key : ℤ → ℚ) (b : ℤ) (hq : q ≤ (b : ℚ))
    (hb : 1 ≤ b) : roundAspect q key ≤ b := by
  unfold roundAspect
  have hc : ⌈q⌉ ≤ b := Int.ceil_le.2 hq
  have hf : ⌊q⌋ ≤ b := le_trans (Int.floor_le_ceil q) hc
  rcases le_or_lt (key ⌊q⌋) (key ⌈q⌉) with h | h
  · rw [if_pos h]
    exact max_le hf hb
  · rw [if_neg (not_le.2 h)]
    exact max_le hc hb

theorem roundAspect_pos (q : ℚ) (key : ℤ → ℚ) : 0 < roundAspect q key :=
  lt_of_lt_of_le one_pos (le_max_right _ _)

theorem roundAspect_close (q : ℚ) (key : ℤ → ℚ) (hq : 0 ≤ q) :
    |(roundAspect q key : ℚ) - q| ≤ 1 := by
  unfold roundAspect
  have hfl : (⌊q⌋ : ℚ) ≤ q := Int.floor_le q
  have hfg : q - 1 < (⌊q⌋ : ℚ) := Int.sub_one_lt_floor q
  have hcl : (q : ℚ) ≤ (⌈q⌉ : ℚ) := Int.le_ceil q
  have hcg : (⌈q⌉ : ℚ) < q + 1 := Int.ceil_lt_add_one q
  rcases le_or_lt (key ⌊q⌋) (key ⌈q⌉) with h | h
  · rw [if_pos h]
    rcases le_or_lt 1 ⌊q⌋ with h1 | h1
    · rw [max_eq_left h1]
      rw [abs_le]
      constructor <;> linarith
    · rw [max_eq_right h1.le]
      have hql : q < 1 := by
        have h2 : q < (⌊q⌋ : ℚ) + 1 := Int.lt_floor_add_one q
        have h3 : (⌊q⌋ : ℚ) ≤ 0 := by
          have h4 : ⌊q⌋ ≤ 0 := by omega
          exact_mod_cast h4
        linarith
      rw [abs_le]
      push_cast
      constructor <;> linarith
  · rw [if_neg (not_le.2 h)]
    rcases le_or_lt 1 ⌈q⌉ with h1 | h1
    · rw [max_eq_left h1]
      rw [abs_le]
      constructor <;> linarith
    · rw [max_eq_right h1.le]
      have h3 : (⌈q⌉ : ℚ) ≤ 0 := by
        have h4 : ⌈q⌉ ≤ 0 := by omega
        exact_mod_cast h4
      have hq0 : q = 0 := le_antisymm (by linarith) hq
      rw [abs_le]
      push_cast
      constructor <;> linarith

/-- What the two thumbnail size computations guarantee: both fit inside
the `s × s` square, the photo output has positive dimensions, both
preserve the source aspect ratio up to integer rounding
(`|a·h − b·w| ≤ max w h`, i.e. each rounded dimension is within one pixel
of exact proportionality), and concretely a 4000×3000 photo at size 180
becomes 180×135 (exact 4:3), likewise for a 4000×3000 video frame. -/
def thumbSpec (w h s : ℕ) : Prop :=
  (pil_thumbnail_size w h s).1 ≤ (s : ℤ) ∧
    (pil_thumbnail_size w h s).2 ≤ (s : ℤ) ∧
    0 < (pil_thumbnail_size w h s).1 ∧ 0 < (pil_thumbnail_size w h s).2 ∧
    |((pil_thumbnail_size w h s).1 : ℚ) * (h : ℚ)
        - ((pil_thumbnail_size w h s).2 : ℚ) * (w : ℚ)| ≤ max (w : ℚ) (h : ℚ) ∧
    (video_thumb_size w h s).1 ≤ (s : ℤ) ∧
    (video_thumb_size w h s).2 ≤ (s : ℤ) ∧
    |((video_thumb_size w h s).1 : ℚ) * (h : ℚ)
        - ((video_thumb_size w h s).2 : ℚ) * (w : ℚ)| ≤ max (w : ℚ) (h : ℚ) ∧
    pil_thumbnail_size 4000 3000 180 = (180, 135) ∧
    video_thumb_size 4000 3000 180 = (180, 135)

/-- The dimensions Pillow's `thumbnail((s, s), ...)` produces fit in the
`s × s` square, are positive, and are within one pixel of exact
proportionality to the source. -/
theorem pil_thumbnail_size_fits (w h s : ℕ)
    (hw : 0 < w) (hh : 0 < h) (hs : 0 < s) :
    (pil_thumbnail_size w h s).1 ≤ (s : ℤ) ∧
      (pil_thumbnail_size w h s).2 ≤ (s : ℤ) ∧
      0 < (pil_thumbnail_size w h s).1 ∧ 0 < (pil_thumbnail_size w h s).2 ∧
      |((pil_thumbnail_size w h s).1 : ℚ) * (h : ℚ)
          - ((pil_thumbnail_size w h s).2 : ℚ) * (w : ℚ)|
        ≤ max (w : ℚ) (h : ℚ) := by
  have hwQ : (0 : ℚ) < (w : ℚ) := by exact_mod_cast hw
  have hhQ : (0 : ℚ) < (h : ℚ) := by exact_mod_cast hh
  have hsQ : (0 : ℚ) < (s : ℚ) := by exact_mod_cast hs
  have hsZ : (1 : ℤ) ≤ (s : ℤ) := by exact_mod_cast hs
  simp only [pil_thumbnail_size]
  by_cases h1 : (s : ℤ) ≥ (w : ℤ) ∧ (s : ℤ) ≥ (h : ℤ)
  · rw [if_pos h1]
    dsimp only
    refine ⟨h1.1, h1.2, by exact_mod_cast hw, by exact_mod_cast hh, ?_⟩
    have hzero : ((w : ℤ) : ℚ) * (h : ℚ) - ((h : ℤ) : ℚ) * (w : ℚ) = 0 := by
      push_cast
      ring
    rw [hzero, abs_zero]
    exact le_max_of_le_left hwQ.le
  · rw [if_neg h1]
    by_cases h2 : (s : ℚ) / (s : ℚ) ≥ (w : ℚ) / (h : ℚ)
    · rw [if_pos h2]
      dsimp only
      have hwh : (w : ℚ) ≤ (h : ℚ) := by
        rw [div_self (ne_of_gt hsQ)] at h2
        exact (div_le_one hhQ).1 h2
      have hqnn : (0 : ℚ) ≤ (s : ℚ) * ((w : ℚ) / (h : ℚ)) := by positivity
      have hqle : (s : ℚ) * ((w : ℚ) / (h : ℚ)) ≤ ((s : ℤ) : ℚ) := by
        push_cast
        calc (s : ℚ) * ((w : ℚ) / (h : ℚ)) ≤ (s : ℚ) * 1 := by
              have hd1 : (w : ℚ) / (h : ℚ) ≤ 1 := (div_le_one hhQ).2 hwh
              exact mul_le_mul_of_nonneg_left hd1 hsQ.le
          _ = (s : ℚ) := mul_one _
      refine ⟨roundAspect_le _ _ _ hqle hsZ, le_refl _, roundAspect_pos _ _,
        by exact_mod_cast hs, ?_⟩
      have hclose := roundAspect_close ((s : ℚ) * ((w : ℚ) / (h : ℚ)))
        (fun n => |(w : ℚ) / (h : ℚ) - (n : ℚ) / (s : ℚ)|) hqnn
      set n := roundAspect ((s : ℚ) * ((w : ℚ) / (h : ℚ)))
        (fun n => |(w : ℚ) / (h : ℚ) - (n : ℚ) / (s : ℚ)|) with hn
      have hkey : ((n : ℤ) : ℚ) * (h : ℚ) - ((s : ℤ) : ℚ) * (w : ℚ)
          = ((n : ℚ) - (s : ℚ) * ((w : ℚ) / (h : ℚ))) * (h : ℚ) := by
        push_cast
        field_simp
      rw [hkey, abs_mul, abs_of_pos hhQ]
      calc |(n : ℚ) - (s : ℚ) * ((w : ℚ) / (h : ℚ))| * (h : ℚ)
          ≤ 1 * (h : ℚ) := mul_le_mul_of_nonneg_right hclose hhQ.le
        _ = (h : ℚ) := one_mul _
        _ ≤ max (w : ℚ) (h : ℚ) := le_max_right _ _
    · rw [if_neg h2]
      dsimp only
      have hwh : (h : ℚ) < (w : ℚ) := by
        rw [div_self (ne_of_gt hsQ)] at h2
        exact (one_lt_div hhQ).1 (not_le.1 h2)
      have hqnn : (0 : ℚ) ≤ (s : ℚ) / ((w : ℚ) / (h : ℚ)) := by positivity
      have hqle : (s : ℚ) / ((w : ℚ) / (h : ℚ)) ≤ ((s : ℤ) : ℚ) := by
        push_cast
        rw [div_le_iff₀ (by positivity)]
        calc (s : ℚ) = (s : ℚ) * 1 := (mul_one _).symm
          _ ≤ (s : ℚ) * ((w : ℚ) / (h : ℚ)) := by
              have hd1 : (1 : ℚ) ≤ (w : ℚ) / (h : ℚ) := (one_le_div hhQ).2 hwh.le
              exact mul_le_mul_of_nonneg_left hd1 hsQ.le
      refine ⟨le_refl _, roundAspect_le _ _ _ hqle hsZ,
        by exact_mod_cast hs, roundAspect_pos _ _, ?_⟩
      have hclose := roundAspect_close ((s : ℚ) / ((w : ℚ) / (h : ℚ)))
        (fun n => if n = 0 then 0 else |(w : ℚ) / (h : ℚ) - (s : ℚ) / (n : ℚ)|)
        hqnn
      set n := roundAspect ((s : ℚ) / ((w : ℚ) / (h : ℚ)))
        (fun n => if n = 0 then 0 else |(w : ℚ) / (h : ℚ) - (s : ℚ) / (n : ℚ)|)
        with hn
      have hkey : ((s : ℤ) : ℚ) * (h : ℚ) - ((n : ℤ) : ℚ) * (w : ℚ)
          = ((s : ℚ) / ((w : ℚ) / (h : ℚ)) - (n : ℚ)) * (w : ℚ) := by
        push_cast
        field_simp
        ring
      rw [hkey, abs_mul, abs_of_pos hwQ]
      rw [abs_sub_comm] at hclose
      calc |(s : ℚ) / ((w : ℚ) / (h : ℚ)) - (n : ℚ)| * (w : ℚ)
          ≤ 1 * (w : ℚ) := mul_le_mul_of_nonneg_right hclose hwQ.le
        _ = (w : ℚ) := one_mul _
        _ ≤ max (w : ℚ) (h : ℚ) := le_max_left _ _

/-- The dimensions `_video_thumb` computes fit in the `s × s` square and
are within one pixel of exact proportionality to the frame. -/
theorem video_thumb_size_fits (w h s : ℕ)
    (hw : 0 < w) (hh : 0 < h) (hs : 0 < s) :
    (video_thumb_size w h s).1 ≤ (s : ℤ) ∧
      (video_thumb_size w h s).2 ≤ (s : ℤ) ∧
      |((video_thumb_size w h s).1 : ℚ) * (h : ℚ)
          - ((video_thumb_size w h s).2 : ℚ) * (w : ℚ)|
        ≤ max (w : ℚ) (h : ℚ) := by
  have hwQ : (0 : ℚ) < (w : ℚ) := by exact_mod_cast hw
  have hhQ : (0 : ℚ) < (h : ℚ) := by exact_mod_cast hh
  have hsQ : (0 : ℚ) < (s : ℚ) := by exact_mod_cast hs
  have hmQ : (0 : ℚ) < ((max h w : ℕ) : ℚ) := by
    have hm : 0 < max h w := lt_max_of_lt_left hh
    exact_mod_cast hm
  have hwm : (w : ℚ) ≤ ((max h w : ℕ) : ℚ) := by
    exact_mod_cast le_max_right h w
  have hhm : (h : ℚ) ≤ ((max h w : ℕ) : ℚ) := by
    exact_mod_cast le_max_left h w
  have hc : ((s : ℤ) : ℚ) = (s : ℚ) := by
    push_cast
    rfl
  have hxs : (w : ℚ) * ((s : ℚ) / ((max h w : ℕ) : ℚ)) ≤ ((s : ℤ) : ℚ) := by
    rw [hc, mul_div_assoc', div_le_iff₀ hmQ]
    calc (w : ℚ) * (s : ℚ) ≤ ((max h w : ℕ) : ℚ) * (s : ℚ) :=
          mul_le_mul_of_nonneg_right hwm hsQ.le
      _ = (s : ℚ) * ((max h w : ℕ) : ℚ) := mul_comm _ _
  have hys : (h : ℚ) * ((s : ℚ) / ((max h w : ℕ) : ℚ)) ≤ ((s : ℤ) : ℚ) := by
    rw [hc, mul_div_assoc', div_le_iff₀ hmQ]
    calc (h : ℚ) * (s : ℚ) ≤ ((max h w : ℕ) : ℚ) * (s : ℚ) :=
          mul_le_mul_of_nonneg_right hhm hsQ.le
      _ = (s : ℚ) * ((max h w : ℕ) : ℚ) := mul_comm _ _
  simp only [video_thumb_size]
  refine ⟨?_, ?_, ?_⟩
  · calc ⌊(w : ℚ) * ((s : ℚ) / ((max h w : ℕ) : ℚ))⌋
        ≤ ⌊((s : ℤ) : ℚ)⌋ := Int.floor_le_floor hxs
      _ = (s : ℤ) := Int.floor_intCast s
  · calc ⌊(h : ℚ) * ((s : ℚ) / ((max h w : ℕ) : ℚ))⌋
        ≤ ⌊((s : ℤ) : ℚ)⌋ := Int.floor_le_floor hys
      _ = (s : ℤ) := Int.floor_intCast s
  · set x : ℚ := (w : ℚ) * ((s : ℚ) / ((max h w : ℕ) : ℚ)) with hx
    set y : ℚ := (h : ℚ) * ((s : ℚ) / ((max h w : ℕ) : ℚ)) with hy
    have hxy : x * (h : ℚ) = y * (w : ℚ) := by
      rw [hx, hy]
      ring
    have hfx1 : (⌊x⌋ : ℚ) * (h : ℚ) ≤ x * (h : ℚ) :=
      mul_le_mul_of_nonneg_right (Int.floor_le x) hhQ.le
    have hfx2 : (x - 1) * (h : ℚ) < (⌊x⌋ : ℚ) * (h : ℚ) :=
      mul_lt_mul_of_pos_right (Int.sub_one_lt_floor x) hhQ
    have hfy1 : (⌊y⌋ : ℚ) * (w : ℚ) ≤ y * (w : ℚ) :=
      mul_le_mul_of_nonneg_right (Int.floor_le y) hwQ.le
    have hfy2 : (y - 1) * (w : ℚ) < (⌊y⌋ : ℚ) * (w : ℚ) :=
      mul_lt_mul_of_pos_right (Int.sub_one_lt_floor y) hwQ
    rw [abs_le]
    constructor
    · have hmx : (h : ℚ) ≤ max (w : ℚ) (h : ℚ) := le_max_right _ _
      linarith
    · have hmx : (w : ℚ) ≤ max (w : ℚ) (h : ℚ) := le_max_left _ _
      linarith

/-- The concrete 4000×3000 photo at size 180 becomes exactly 180×135. -/
theorem pil_thumbnail_size_4000_3000 :
    pil_thumbnail_size 4000 3000 180 = (180, 135) := by
  norm_num [pil_thumbnail_size, roundAspect]

/-- The concrete 4000×3000 video frame at size 180 becomes exactly
180×135. -/
theorem video_thumb_size_4000_3000 :
    video_thumb_size 4000 3000 180 = (180, 135) := by
  norm_num [video_thumb_size]

/-- **C9**: every successfully generated thumbnail (photo via Pillow's
`thumbnail`, video via the explicit resize) fits within the configured
square bound and preserves the source aspect ratio up to integer rounding;
in particular a 4000×3000 source at thumbnail size 180 yields 180×135. -/
theorem claim_C9_thumbnail_dims (w h s : ℕ)
    (hw : 0 < w) (hh : 0 < h) (hs : 0 < s) : thumbSpec w h s := by
  obtain ⟨p1, p2, p3, p4, p5⟩ := pil_thumbnail_size_fits w h s hw hh hs
  obtain ⟨v1, v2, v3⟩ := video_thumb_size_fits w h s hw hh hs
  exact ⟨p1, p2, p3, p4, p5, v1, v2, v3, pil_thumbnail_size_4000_3000,
    video_thumb_size_4000_3000⟩

/-- Witness for C9 at the spec's concrete 4000×3000, size-180 scenario. -/
theorem claim_C9_thumbnail_dims_witness :
    0 < 4000 ∧ 0 < 3000 ∧ 0 < 180 ∧ thumbSpec 4000 3000 180 :=
  ⟨by decide, by decide, by decide,
    claim_C9_thumbnail_dims 4000 3000 180 (by decide) (by decide) (by decide)⟩

end AshAlbum
